import Mathlib

/-!
Verification of the dmto-ecash core.

A shallow embedding of the `dmto-ecash` crate (files `blind.rs`, `hash.rs`,
`types.rs`, `mint.rs`, `wallet.rs`) together with proofs and refutations of the
specification's claims about it.

Modelling conventions:

* The secp256k1 group is cyclic of prime order `GroupOrder` with generator `G`.
  We represent a group element by its discrete logarithm with respect to `G`,
  i.e. `Point := ZMod GroupOrder`; the point at infinity is `0` and the
  generator is `1`.  Scalars (`secp256k1::Scalar`, `SecretKey`) are likewise
  `ZMod GroupOrder`.  Under this representation `PublicKey::combine` is
  addition and `mul_tweak` is multiplication by the scalar.
* A Rust `PublicKey` is never the point at infinity and a `SecretKey` is never
  zero; where a claim needs these typing facts they appear as hypotheses.
* Fallible operations (`.unwrap()` in the source, which aborts the process on
  `Err`) are modelled with `Option`: `none` is a panic.
  `PublicKey::combine` and `mul_tweak` return `Err` exactly when the resulting
  point is the point at infinity; in the prime-order secp256k1 group a scalar
  multiple `t * P` of a non-infinity point `P` is infinity iff `t = 0`, and the
  kernel cannot feasibly check primality of the 256-bit `GroupOrder`, so the
  small number of places where a proof needs "a product of nonzero scalars is
  nonzero" carry that fact as an explicit (always-true-in-reality) hypothesis.
* SHA-256 is modelled as an explicit function parameter `H` mapping the four
  serialized points that `blind.rs` feeds to the hasher to the digest read as a
  big-endian natural number (serialization of points is injective, so composing
  it into `H` loses nothing).  All theorems hold for every `H`, in particular
  for the real compound of serialization and SHA-256.
* `u64` arithmetic wraps modulo `2 ^ 64` (release-profile semantics of the
  `+=` and `Iterator::sum` in `mint.rs` / `wallet.rs`; a debug build would
  abort at the same inputs, and in neither build does the code behave as the
  unbounded-integer reading of the spec requires).
* The unbounded `loop` constructs in `hash.rs` and `blind.rs` are embedded by
  their finite unfoldings: a fuel parameter counts how many iterations we
  observe, and the result is `none` while the loop is still running.
-/

set_option maxRecDepth 20000

namespace DmtoEcash

/-- Order of the secp256k1 group (a prime; the number of points on the curve,
which equals the number of valid secret keys plus one). -/
def GroupOrder : ℕ :=
  115792089237316195423570985008687907852837564279074904382605163141518161494337

instance : Fact (1 < GroupOrder) := ⟨by norm_num [GroupOrder]⟩

instance : NeZero GroupOrder := ⟨by norm_num [GroupOrder]⟩

/-- A scalar modulo the group order (`secp256k1::Scalar` / `SecretKey`; a
`SecretKey` is additionally nonzero). -/
abbrev Scalar : Type := ZMod GroupOrder

/-- A curve point, represented by its discrete logarithm with respect to the
generator.  `0` is the point at infinity, which a Rust `PublicKey` can never
hold. -/
abbrev Point : Type := ZMod GroupOrder

/-- The generator `G` in discrete-logarithm representation. -/
def Generator : Point := 1

/-- Model of `PublicKey::combine` (group addition).  The source always calls it with
`.unwrap()`; it returns `Err` exactly when the sum is the point at
infinity. -/
def combine (p q : Point) : Option Point :=
  if p + q = 0 then none else some (p + q)

/-- Model of `PublicKey::mul_tweak` (scalar multiplication of a point).  Returns `Err`
exactly when the result is the point at infinity, which for a tweak already
reduced modulo the prime group order means `t * p = 0`. -/
def mul_tweak (p : Point) (t : Scalar) : Option Point :=
  if t * p = 0 then none else some (t * p)

/-- Model of `Scalar::from_be_bytes` applied to a 32-byte digest read as a big-endian
natural number: succeeds iff the value is below the group order (no modular
reduction is performed). -/
def scalar_from_be_bytes (h : ℕ) : Option Scalar :=
  if h < GroupOrder then some (h : Scalar) else none

/-- The type of the abstract challenge hasher: SHA-256 over the concatenation
of the four serialized points fed to it in `blind.rs`, with the digest read as
a natural number below `2 ^ 256`. -/
abbrev ChallengeHash : Type := Point → Point → Point → Point → ℕ

/-- Structure `BlindedMessage` from `blind.rs`. -/
structure BlindedMessage where
  blinded_point : Point
  blind_factor : Scalar
deriving DecidableEq

/-- Structure `DLEQ` from `blind.rs`: challenge `e` and response `s`. -/
structure DLEQ where
  e : Scalar
  s : Scalar
deriving DecidableEq

/-- The `random_scalar` retry loop of `blind.rs`, embedded by its finite
unfolding.  `bytes i` is the 32-byte output of the thread RNG on the `i`-th
iteration, read big-endian; an iteration succeeds when `Scalar::from_be_bytes`
accepts it (value below the group order) and the scalar is nonzero.  `fuel`
bounds how many iterations we observe: `none` means the loop is still running
after `fuel` iterations.  The source loop has no iteration cap of its own. -/
def random_scalar (bytes : ℕ → ℕ) : ℕ → ℕ → Option Scalar
  | 0, _ => none
  | fuel + 1, i =>
    if bytes i < GroupOrder ∧ bytes i ≠ 0 then some ((bytes i : ℕ) : Scalar)
    else random_scalar bytes fuel (i + 1)

/-- The `hash_to_curve` retry loop of `hash.rs`, embedded by its finite
unfolding.  `digest ctr` is `Sha256(domain_tag ‖ secret ‖ ctr)` read as a
big-endian natural number; an iteration succeeds when `SecretKey::from_slice`
accepts the digest (nonzero and below the group order), and the returned point
is `sk * G`, i.e. has discrete logarithm `sk`.  `none` means the loop is still
running after `fuel` iterations.  The source loop has no iteration cap of its
own. -/
def hash_to_curve (digest : ℕ → ℕ) : ℕ → ℕ → Option Point
  | 0, _ => none
  | fuel + 1, ctr =>
    if 0 < digest ctr ∧ digest ctr < GroupOrder then some ((digest ctr : ℕ) : Scalar)
    else hash_to_curve digest fuel (ctr + 1)

/-- Model of `blind_message` from `blind.rs`, with the random blinding factor `r`
(produced there by `random_scalar()`, hence nonzero) passed explicitly.
`r_g = r * G` has discrete logarithm `r`; the blinded point is
`y.combine(r_g)`, unwrapped. -/
def blind_message (y : Point) (r : Scalar) : Option BlindedMessage :=
  if r = 0 then none -- SecretKey::from_slice(&r.to_be_bytes()).unwrap()
  else
    match combine y r with -- y.combine(&r_g).unwrap()
    | none => none
    | some bp => some ⟨bp, r⟩

/-- Model of `blind_sign` from `blind.rs`, with the challenge hasher `H` and the random
DLEQ nonce `r` (produced there by `random_scalar()`) passed explicitly.
Computes `C' = a * B'`, then the Fiat–Shamir DLEQ proof
`e = H(r*G, r*B', a*G, C')`, `s = r + e * a`.  Every `.unwrap()` of the source
is an `Option` guard here, in source order. -/
def blind_sign (H : ChallengeHash) (privkey : Scalar) (blinded_point : Point)
    (r : Scalar) : Option (Point × DLEQ) :=
  match mul_tweak blinded_point privkey with -- blinded_point.mul_tweak(&secp, &a).unwrap()
  | none => none
  | some c_p =>
    if r = 0 then none -- SecretKey::from_slice(&r.to_be_bytes()).unwrap()
    else
      match mul_tweak blinded_point r with -- blinded_point.mul_tweak(&secp, &r).unwrap()
      | none => none
      | some r_b =>
        match scalar_from_be_bytes (H r r_b privkey c_p) with -- Scalar::from_be_bytes(hash.into()).unwrap()
        | none => none
        | some e =>
          if e = 0 then none -- SecretKey::from_slice(&e.to_be_bytes()).unwrap()
          else if e * privkey = 0 then none -- e_sk.mul_tweak(&a).unwrap()
          else if r + e * privkey = 0 then none -- r_sk.add_tweak(..).unwrap()
          else some (c_p, ⟨e, r + e * privkey⟩)

/-- Model of `unblind_signature` from `blind.rs`: `C = C' - r * mint_pubkey`, with both
fallible point operations unwrapped in the source. -/
def unblind_signature (blind_sig : Point) (blind_factor : Scalar)
    (mint_pubkey : Point) : Option Point :=
  match mul_tweak mint_pubkey blind_factor with -- mint_pubkey.mul_tweak(..).unwrap()
  | none => none
  | some r_k => combine blind_sig (-r_k) -- blind_sig.combine(&r_k.negate(&secp)).unwrap()

/-- Model of `verify_dleq` from `blind.rs`: recompute `R1 = s*G - e*A`,
`R2 = s*B' - e*C'`, rehash, and compare the challenge.  Guards appear in
source order. -/
def verify_dleq (H : ChallengeHash) (b_p c_p a_pub : Point) (proof : DLEQ) :
    Option Bool :=
  match mul_tweak a_pub proof.e with -- a_pub.mul_tweak(&secp, &proof.e).unwrap()
  | none => none
  | some e_a =>
    if proof.s = 0 then none -- SecretKey::from_slice(&proof.s.to_be_bytes()).unwrap()
    else
      match combine proof.s (-e_a) with -- (s*G).combine(&e_a.negate(&secp)).unwrap()
      | none => none
      | some r1 =>
        match mul_tweak c_p proof.e with -- c_prime.mul_tweak(&secp, &proof.e).unwrap()
        | none => none
        | some e_c =>
          match mul_tweak b_p proof.s with -- b_prime.mul_tweak(&secp, &proof.s).unwrap()
          | none => none
          | some s_b =>
            match combine s_b (-e_c) with -- .combine(&e_c.negate(&secp)).unwrap()
            | none => none
            | some r2 =>
              match scalar_from_be_bytes (H r1 r2 a_pub c_p) with
              | none => none
              | some e_computed => some (decide (e_computed = proof.e))

/-- Structure `Note` from `types.rs`: denomination `value` (`u64`), client-chosen
`secret` (`Vec<u8>`, modelled as a list of naturals), `y = hash_to_curve
(secret)` and the issuer signature point `c`. -/
structure Note where
  value : ℕ
  secret : List ℕ
  y : Point
  c : Point
deriving DecidableEq

/-- Structure `MintKey` from `mint.rs`: denomination keypair. -/
structure MintKey where
  value : ℕ
  privkey : Scalar
  pubkey : Point
deriving DecidableEq

/-- Structure `Mint` from `mint.rs`: the key registry (`HashMap<u64, MintKey>`, modelled
as a lookup function) and the ledger of spent secrets (`DashSet<Vec<u8>>`,
modelled as a finite set). -/
structure Mint where
  keys : ℕ → Option MintKey
  spent : Finset (List ℕ)

/-- Model of `MintKey::new`, with the randomly drawn secret key passed explicitly:
`pubkey = privkey * G`, whose discrete logarithm is `privkey` itself. -/
def MintKey.new (value : ℕ) (sk : Scalar) : MintKey :=
  ⟨value, sk, sk⟩

/-- Model of `Mint::new`, with the key generator passed explicitly: one fresh keypair
per listed denomination, empty ledger. -/
def Mint.new (denoms : List ℕ) (gen : ℕ → Scalar) : Mint :=
  ⟨fun v => if v ∈ denoms then some (MintKey.new v (gen v)) else none, ∅⟩

/-- Model of `Mint::verify_and_spend` from `mint.rs` (lines 50–75).  Returns the `bool`
result together with the updated mint state; `none` is the panic of the
`.unwrap()` on `mul_tweak` (never reached on real inputs, where `privkey ≠ 0`
and `y` is a genuine curve point). -/
def Mint.verify_and_spend (m : Mint) (note : Note) : Option (Bool × Mint) :=
  match m.keys note.value with
  | none => some (false, m)
  | some key =>
    if key.value ≠ note.value then some (false, m)
    else
      match mul_tweak note.y key.privkey with -- note.y.mul_tweak(..).unwrap()
      | none => none
      | some expected =>
        if note.c ≠ expected then some (false, m)
        else if note.secret ∈ m.spent then some (false, m)
        else some (true, { m with spent := insert note.secret m.spent })

/-- Wrapping `u64` sum: `Iterator::sum::<u64>()` under the release profile
wraps modulo `2 ^ 64` (a debug build would instead abort on overflow). -/
def wrap_sum (l : List ℕ) : ℕ :=
  l.sum % 2 ^ 64

/-- The input-verification loop of `Mint::swap`: verify-and-spend each input
in order, stopping at the first failure.  The accumulated mint state is
threaded through because `verify_and_spend` mutates the shared ledger. -/
def spend_inputs : Mint → List Note → Option (Bool × Mint)
  | m, [] => some (true, m)
  | m, n :: rest =>
    match m.verify_and_spend n with
    | none => none
    | some (false, m1) => some (false, m1)
    | some (true, m1) => spend_inputs m1 rest

/-- The output-signing loop of `Mint::swap`: look up each requested
denomination (the `?` operator returns `None` from `swap` on a miss) and
blind-sign the blinded point.  `nonces i` is the DLEQ nonce drawn by
`random_scalar()` inside the `i`-th `blind_sign` call.  The outer `none` is a
panic inside `blind_sign`; `some none` is `swap` returning `None`. -/
def sign_outputs (H : ChallengeHash) (nonces : ℕ → Scalar) (m : Mint) :
    List (ℕ × Point) → ℕ → Option (Option (List (Point × DLEQ)))
  | [], _ => some (some [])
  | (value, blinded) :: rest, i =>
    match m.keys value with
    | none => some none -- let key = self.keys.get(&value)?;
    | some key =>
      match blind_sign H key.privkey blinded (nonces i) with
      | none => none
      | some sig =>
        match sign_outputs H nonces m rest (i + 1) with
        | none => none
        | some none => some none
        | some (some sigs) => some (sig :: sigs : List (Point × DLEQ))

/-- Model of `Mint::swap` from `mint.rs` (lines 77–102): value-conservation check on
the wrapping `u64` sums, then verify-and-spend every input, then blind-sign
every output.  Result: `none` is a panic; `some (none, m1)` is `swap`
returning `None` with mint state `m1`; `some (some sigs, m1)` is success. -/
def Mint.swap (H : ChallengeHash) (nonces : ℕ → Scalar) (m : Mint)
    (inputs : List Note) (outputs : List (ℕ × Point)) :
    Option (Option (List (Point × DLEQ)) × Mint) :=
  if wrap_sum (inputs.map Note.value) ≠ wrap_sum (outputs.map Prod.fst) then
    some (none, m)
  else
    match spend_inputs m inputs with
    | none => none
    | some (false, m1) => some (none, m1)
    | some (true, m1) =>
      match sign_outputs H nonces m1 outputs 0 with
      | none => none
      | some none => some (none, m1)
      | some (some sigs) => some (some sigs, m1)

/-- Structure `Wallet` from `wallet.rs`. -/
structure Wallet where
  notes : List Note
deriving DecidableEq

/-- The greedy selection loop of `Wallet::spend`: before each note the running
sum is compared to `amount` (`if sum >= amount break`), then the note is
selected and its value added with wrapping `u64` addition.  Returns the
selected notes and the final running sum. -/
def select_notes : List Note → ℕ → ℕ → List Note × ℕ
  | [], _, sum => ([], sum)
  | n :: rest, amount, sum =>
    if sum ≥ amount then ([], sum)
    else
      let res := select_notes rest amount ((sum + n.value) % 2 ^ 64)
      (n :: res.1, res.2)

/-- Model of `Wallet::spend` from `wallet.rs` (lines 28–54): greedily select notes,
fail unless the accumulated sum equals `amount` exactly, verify-and-spend each
selected note (sharing the loop shape of `Mint::swap`), and on success retain
only the unselected notes (matched by secret). -/
def Wallet.spend (w : Wallet) (m : Mint) (amount : ℕ) :
    Option (Bool × Wallet × Mint) :=
  match select_notes w.notes amount 0 with
  | (selected, sum) =>
    if sum ≠ amount then some (false, w, m)
    else
      match spend_inputs m selected with
      | none => none
      | some (false, m1) => some (false, w, m1)
      | some (true, m1) =>
        some (true,
          ⟨w.notes.filter fun n => ¬ selected.any fun s => s.secret == n.secret⟩,
          m1)

/-- A mint-facing operation, for reasoning about arbitrary sequences of calls:
either a `verify_and_spend` on a note or a `swap` (with its hasher and nonce
stream attached, since `swap` blind-signs outputs). -/
inductive MintOp where
  | verify (note : Note)
  | swapOp (H : ChallengeHash) (nonces : ℕ → Scalar) (inputs : List Note)
      (outputs : List (ℕ × Point))

/-- Run one mint operation, keeping only the resulting mint state (`none` is a
panic, which aborts the whole process). -/
def run_op (m : Mint) : MintOp → Option Mint
  | .verify note => (m.verify_and_spend note).map Prod.snd
  | .swapOp H nonces inputs outputs =>
    (m.swap H nonces inputs outputs).map Prod.snd

/-- Run a sequence of mint operations from left to right. -/
def run_ops : Mint → List MintOp → Option Mint
  | m, [] => some m
  | m, op :: rest =>
    match run_op m op with
    | none => none
    | some m1 => run_ops m1 rest

/-- Claim rendering for the retry-loop bound on `random_scalar`: some
iteration cap `cap` resolves the loop for every candidate byte stream within
`cap` observed iterations. -/
def random_scalar_capped : Prop :=
  ∃ cap, ∀ bytes, (random_scalar bytes cap 0).isSome

/-- Claim rendering for the retry-loop bound on `hash_to_curve`: some
iteration cap resolves the loop for every digest stream. -/
def hash_to_curve_capped : Prop :=
  ∃ cap, ∀ digest, (hash_to_curve digest cap 0).isSome

/-- Claim rendering for C9: both retry loops are bounded by an
implementation-chosen iteration cap. -/
def retry_loops_capped : Prop :=
  random_scalar_capped ∧ hash_to_curve_capped

/-- The prefix sums (as unbounded integers, in stored order, starting with the
empty prefix) of a list of note values — the quantity the wallet-selection
claim is phrased in terms of. -/
def cumulativeSums (sum : ℕ) : List ℕ → List ℕ
  | [] => [sum]
  | v :: rest => sum :: cumulativeSums (sum + v) rest

/-! ## The ledger race in `verify_and_spend` (mint.rs lines 69–73)

The double-spend gate is written as a `contains` call followed by a separate
`insert` call on the shared `DashSet`:

```
if self.spent.contains(&note.secret) { return false; }
self.spent.insert(note.secret.clone());
true
```

Each `DashSet` call is individually atomic, but nothing serializes the pair,
so between one thread's `contains` and its `insert` another thread can run
both of its own calls.  (The preceding key lookup and signature check touch no
shared mutable state.)  The following small-step model makes each of the two
calls one atomic action and interleaves two threads spending the same
secret. -/

/-- Where a thread is inside the ledger phase of `verify_and_spend`:
not yet started, having observed the `contains` result, or returned. -/
inductive SpendPhase where
  | start
  | observed (absent : Bool)
  | finished (result : Bool)
deriving DecidableEq

/-- One atomic action of a thread in the ledger phase: `start → observed`
executes `self.spent.contains(&secret)`; `observed true → finished true`
executes `self.spent.insert(secret)` and returns `true`; `observed false →
finished false` returns `false`.  A finished thread does nothing. -/
def phase_step (secret : List ℕ) (spent : Finset (List ℕ)) :
    SpendPhase → SpendPhase × Finset (List ℕ)
  | .start => (.observed (secret ∉ spent), spent)
  | .observed true => (.finished true, insert secret spent)
  | .observed false => (.finished false, spent)
  | .finished b => (.finished b, spent)

/-- The shared ledger together with the phases of two threads, both inside
`verify_and_spend` on notes carrying the same secret. -/
structure RaceState where
  spent : Finset (List ℕ)
  t1 : SpendPhase
  t2 : SpendPhase
deriving DecidableEq

/-- Let one of the two threads (chosen by the scheduler bit) take its next
atomic action. -/
def race_step (secret : List ℕ) (st : RaceState) : Bool → RaceState
  | false =>
    let r := phase_step secret st.spent st.t1
    ⟨r.2, r.1, st.t2⟩
  | true =>
    let r := phase_step secret st.spent st.t2
    ⟨r.2, st.t1, r.1⟩

/-- Run a schedule (a list of scheduler bits) over the two-thread race. -/
def race_run (secret : List ℕ) (st : RaceState) (sched : List Bool) :
    RaceState :=
  sched.foldl (race_step secret) st

/-! ## Concrete instances used by witnesses and counterexamples -/

/-- A challenge hasher returning the constant digest 1 (any function of this
type instantiates the abstract SHA-256 parameter). -/
def Hone : ChallengeHash := fun _ _ _ _ => 1

/-- A nonce stream returning the constant scalar 1. -/
def nonce1 : ℕ → Scalar := fun _ => 1

/-- A key registry holding the keypair with secret key 1 for denomination 1
and nothing else. -/
def mintKeysC : ℕ → Option MintKey := fun v =>
  if v = 1 then some ⟨1, 1, 1⟩ else none

/-- A mint with `mintKeysC` and an empty ledger. -/
def mintC : Mint := ⟨mintKeysC, ∅⟩

/-- The mint `mintC` after the secret `[0]` has been spent. -/
def mintC1 : Mint := ⟨mintKeysC, insert [0] ∅⟩

/-- A valid denomination-1 note under `mintKeysC`: `y = G`, `c = 1 * y`. -/
def noteC : Note := ⟨1, [0], 1, 1⟩

/-- A denomination-1 note with a wrong signature point (`c = 2 ≠ 1 * y`). -/
def badNoteC : Note := ⟨1, [1], 1, 2⟩

/-- A key registry holding keypairs (secret key 1) for the two large
denominations `2 ^ 63` and `2 ^ 63 + 5`, used by the wrapping-overflow
counterexamples. -/
def mintKeysW : ℕ → Option MintKey := fun v =>
  if v = 2 ^ 63 then some ⟨2 ^ 63, 1, 1⟩
  else if v = 2 ^ 63 + 5 then some ⟨2 ^ 63 + 5, 1, 1⟩
  else none

/-- A mint with `mintKeysW` and an empty ledger. -/
def mintW : Mint := ⟨mintKeysW, ∅⟩

/-- Valid notes of denomination `2 ^ 63` with distinct secrets, and one of
denomination `2 ^ 63 + 5`. -/
def noteW1 : Note := ⟨2 ^ 63, [0], 1, 1⟩

/-- Second valid `2 ^ 63` note. -/
def noteW2 : Note := ⟨2 ^ 63, [1], 1, 1⟩

/-- Valid `2 ^ 63 + 5` note. -/
def noteW3 : Note := ⟨2 ^ 63 + 5, [2], 1, 1⟩

/-- The wallet holding the three overflow-counterexample notes in stored
order. -/
def walletW : Wallet := ⟨[noteW1, noteW2, noteW3]⟩

/-- The mint `mintW` after the secrets of `noteW1`, `noteW2`, `noteW3` have
been spent in order. -/
def mintWafter : Mint := ⟨mintKeysW, insert [2] (insert [1] (insert [0] ∅))⟩

/-- The mint `mintW` after the secrets of `noteW1` and `noteW2` have been
spent in order. -/
def mintWab : Mint := ⟨mintKeysW, insert [1] (insert [0] ∅)⟩

/-! ## Supporting lemmas -/

/-- Lemma: every mint built by `Mint::new` has a well-formed key registry —
each stored keypair carries the denomination it is filed under.  This
justifies the well-formedness hypothesis used for reachable mint states (the
registry is never modified after construction). -/
lemma Mint.new_wf (denoms : List ℕ) (gen : ℕ → Scalar) :
    ∀ v k, (Mint.new denoms gen).keys v = some k → k.value = v := by
  intro v k hk
  simp only [Mint.new] at hk
  split at hk
  · cases hk
    rfl
  · exact Option.noConfusion hk

/-- Any returning `verify_and_spend` call leaves the key registry unchanged,
leaves the whole state unchanged when it returns `false`, and on `true`
extends the ledger by exactly the note's secret (which was not yet there). -/
lemma verify_and_spend_shape {m : Mint} {note : Note} {b : Bool} {m1 : Mint}
    (h : m.verify_and_spend note = some (b, m1)) :
    m1.keys = m.keys ∧ (b = false → m1 = m) ∧
      (b = true → note.secret ∉ m.spent ∧ m1.spent = insert note.secret m.spent) := by
  unfold Mint.verify_and_spend at h
  split at h
  · simp only [Option.some_inj, Prod.mk.injEq] at h
    obtain ⟨hb, hm⟩ := h
    subst hb hm
    exact ⟨rfl, fun _ => rfl, fun hcon => Bool.noConfusion hcon⟩
  · split at h
    · simp only [Option.some_inj, Prod.mk.injEq] at h
      obtain ⟨hb, hm⟩ := h
      subst hb hm
      exact ⟨rfl, fun _ => rfl, fun hcon => Bool.noConfusion hcon⟩
    · split at h
      · cases h
      · split at h
        · simp only [Option.some_inj, Prod.mk.injEq] at h
          obtain ⟨hb, hm⟩ := h
          subst hb hm
          exact ⟨rfl, fun _ => rfl, fun hcon => Bool.noConfusion hcon⟩
        · split at h
          · simp only [Option.some_inj, Prod.mk.injEq] at h
            obtain ⟨hb, hm⟩ := h
            subst hb hm
            exact ⟨rfl, fun _ => rfl, fun hcon => Bool.noConfusion hcon⟩
          · next hnotspent =>
            simp only [Option.some_inj, Prod.mk.injEq] at h
            obtain ⟨hb, hm⟩ := h
            subst hb
            subst hm
            exact ⟨rfl, fun hcon => Bool.noConfusion hcon, fun _ => ⟨hnotspent, rfl⟩⟩

/-- Lemma: `verify_and_spend` never removes secrets from the ledger. -/
lemma verify_and_spend_mono {m : Mint} {note : Note} {b : Bool} {m1 : Mint}
    (h : m.verify_and_spend note = some (b, m1)) : m.spent ⊆ m1.spent := by
  obtain ⟨-, hf, ht⟩ := verify_and_spend_shape h
  cases b
  · rw [hf rfl]
  · rw [(ht rfl).2]
    exact Finset.subset_insert _ _

/-- Lemma: `verify_and_spend` only ever adds the given note's secret. -/
lemma verify_and_spend_newly {m : Mint} {note : Note} {b : Bool} {m1 : Mint}
    (h : m.verify_and_spend note = some (b, m1)) :
    m1.spent ⊆ insert note.secret m.spent := by
  obtain ⟨-, hf, ht⟩ := verify_and_spend_shape h
  cases b
  · rw [hf rfl]
    exact Finset.subset_insert _ _
  · rw [(ht rfl).2]

/-- A `verify_and_spend` call on an already-spent secret that returns at all
returns `false` and does not change the state. -/
lemma verify_and_spend_of_spent {m : Mint} {note : Note} {b : Bool} {m1 : Mint}
    (hs : note.secret ∈ m.spent) (h : m.verify_and_spend note = some (b, m1)) :
    b = false ∧ m1 = m := by
  obtain ⟨-, hf, ht⟩ := verify_and_spend_shape h
  cases b
  · exact ⟨rfl, hf rfl⟩
  · exact absurd hs (ht rfl).1

/-- The input-spending loop preserves the key registry, never removes spent
secrets, and only adds secrets of the given input notes. -/
lemma spend_inputs_shape :
    ∀ (l : List Note) (m : Mint) (b : Bool) (m1 : Mint),
      spend_inputs m l = some (b, m1) →
      m1.keys = m.keys ∧ m.spent ⊆ m1.spent ∧
        m1.spent ⊆ m.spent ∪ (l.map Note.secret).toFinset
  | [], m, b, m1 => by
    intro h
    simp only [spend_inputs, Option.some_inj, Prod.mk.injEq] at h
    rw [← h.2]
    exact ⟨rfl, Finset.Subset.refl _, Finset.subset_union_left⟩
  | n :: rest, m, b, m1 => by
    intro h
    simp only [spend_inputs] at h
    split at h
    · cases h
    · next heq =>
      simp only [Option.some_inj, Prod.mk.injEq] at h
      obtain ⟨hb, hm⟩ := h
      subst hm
      obtain ⟨hk, hsub, hnew⟩ := verify_and_spend_shape heq
      refine ⟨hk, verify_and_spend_mono heq, ?_⟩
      refine (verify_and_spend_newly heq).trans ?_
      simp only [List.map_cons, List.toFinset_cons]
      intro s hs
      rcases Finset.mem_insert.mp hs with h0 | h0
      · rw [h0]
        exact Finset.mem_union_right _ (Finset.mem_insert_self _ _)
      · exact Finset.mem_union_left _ h0
    · next m2 heq =>
      obtain ⟨hk2, hsub2, hnew2⟩ := spend_inputs_shape rest m2 b m1 h
      obtain ⟨hk1, -, ht1⟩ := verify_and_spend_shape heq
      obtain ⟨hs1, hins1⟩ := ht1 rfl
      refine ⟨hk2.trans hk1, (verify_and_spend_mono heq).trans hsub2, ?_⟩
      refine hnew2.trans ?_
      intro s hsmem
      simp only [List.map_cons, List.toFinset_cons]
      rcases Finset.mem_union.mp hsmem with h0 | h0
      · rw [hins1] at h0
        rcases Finset.mem_insert.mp h0 with h1 | h1
        · exact Finset.mem_union_right _ (by simp [h1])
        · exact Finset.mem_union_left _ h1
      · exact Finset.mem_union_right _ (Finset.mem_insert_of_mem h0)

/-- Lemma: `Mint::swap` preserves the key registry, never removes spent secrets, and
only adds secrets of its input notes. -/
lemma swap_shape {H : ChallengeHash} {nonces : ℕ → Scalar} {m : Mint}
    {inputs : List Note} {outputs : List (ℕ × Point)}
    {res : Option (List (Point × DLEQ))} {m1 : Mint}
    (h : m.swap H nonces inputs outputs = some (res, m1)) :
    m1.keys = m.keys ∧ m.spent ⊆ m1.spent ∧
      m1.spent ⊆ m.spent ∪ (inputs.map Note.secret).toFinset := by
  unfold Mint.swap at h
  split at h
  · simp only [Option.some_inj, Prod.mk.injEq] at h
    rw [← h.2]
    exact ⟨rfl, Finset.Subset.refl _, Finset.subset_union_left⟩
  · split at h
    · cases h
    · next heq =>
      simp only [Option.some_inj, Prod.mk.injEq] at h
      rw [← h.2]
      exact spend_inputs_shape inputs m _ _ heq
    · next m2 heq =>
      have hshape := spend_inputs_shape inputs m _ _ heq
      split at h
      · cases h
      · simp only [Option.some_inj, Prod.mk.injEq] at h
        rw [← h.2]
        exact hshape
      · simp only [Option.some_inj, Prod.mk.injEq] at h
        rw [← h.2]
        exact hshape

/-- Any returning mint operation preserves the key registry and never removes
spent secrets. -/
lemma run_op_mono {m : Mint} {op : MintOp} {m1 : Mint}
    (h : run_op m op = some m1) :
    m1.keys = m.keys ∧ m.spent ⊆ m1.spent := by
  cases op with
  | verify note =>
    simp only [run_op, Option.map_eq_some'] at h
    obtain ⟨⟨b, m2⟩, hv, hm⟩ := h
    cases hm
    exact ⟨(verify_and_spend_shape hv).1, verify_and_spend_mono hv⟩
  | swapOp H nonces inputs outputs =>
    simp only [run_op, Option.map_eq_some'] at h
    obtain ⟨⟨res, m2⟩, hv, hm⟩ := h
    cases hm
    obtain ⟨hk, hsub, -⟩ := swap_shape hv
    exact ⟨hk, hsub⟩

/-- Any returning sequence of mint operations preserves the key registry and
never removes spent secrets. -/
lemma run_ops_mono :
    ∀ (ops : List MintOp) (m m1 : Mint), run_ops m ops = some m1 →
      m1.keys = m.keys ∧ m.spent ⊆ m1.spent
  | [], m, m1 => by
    intro h
    simp only [run_ops, Option.some_inj] at h
    rw [← h]
    exact ⟨rfl, Finset.Subset.refl _⟩
  | op :: rest, m, m1 => by
    intro h
    simp only [run_ops] at h
    split at h
    · cases h
    · next m2 heq =>
      obtain ⟨hk2, hs2⟩ := run_ops_mono rest m2 m1 h
      obtain ⟨hk1, hs1⟩ := run_op_mono heq
      exact ⟨hk2.trans hk1, hs1.trans hs2⟩

/-- Characterization of a returning `blind_sign` call: every guard passed and
the outputs are `C' = a * B'`, `e = Hash(r*G, r*B', a*G, C')`,
`s = r + e * a`. -/
lemma blind_sign_eq {H : ChallengeHash} {a b r : Scalar} {cp : Point} {pf : DLEQ}
    (h : blind_sign H a b r = some (cp, pf)) :
    a * b ≠ 0 ∧ r ≠ 0 ∧ r * b ≠ 0 ∧ H r (r * b) a (a * b) < GroupOrder ∧
      pf.e = ((H r (r * b) a (a * b) : ℕ) : Scalar) ∧ pf.e ≠ 0 ∧ pf.e * a ≠ 0 ∧
      r + pf.e * a ≠ 0 ∧ cp = a * b ∧ pf.s = r + pf.e * a := by
  unfold blind_sign at h
  by_cases hab : a * b = 0
  · simp only [mul_tweak, if_pos hab] at h
    exact Option.noConfusion h
  · simp only [mul_tweak, if_neg hab] at h
    by_cases hr : r = 0
    · rw [if_pos hr] at h
      exact Option.noConfusion h
    · rw [if_neg hr] at h
      by_cases hrb : r * b = 0
      · simp only [if_pos hrb] at h
        exact Option.noConfusion h
      · simp only [if_neg hrb] at h
        by_cases hH : H r (r * b) a (a * b) < GroupOrder
        · simp only [scalar_from_be_bytes, if_pos hH] at h
          by_cases he : ((H r (r * b) a (a * b) : ℕ) : Scalar) = 0
          · rw [if_pos he] at h
            exact Option.noConfusion h
          · rw [if_neg he] at h
            by_cases hea : ((H r (r * b) a (a * b) : ℕ) : Scalar) * a = 0
            · rw [if_pos hea] at h
              exact Option.noConfusion h
            · rw [if_neg hea] at h
              by_cases hs : r + ((H r (r * b) a (a * b) : ℕ) : Scalar) * a = 0
              · rw [if_pos hs] at h
                exact Option.noConfusion h
              · rw [if_neg hs] at h
                simp only [Option.some_inj, Prod.mk.injEq] at h
                obtain ⟨hcp, hpf⟩ := h
                subst hpf
                exact ⟨hab, hr, hrb, hH, rfl, he, hea, hs, hcp.symm, rfl⟩
        · simp only [scalar_from_be_bytes, if_neg hH] at h
          exact Option.noConfusion h

/-! ## Claims -/

/-- C3: for every mint state whose key registry is well-formed (every stored
keypair carries its own denomination, as `Mint::new` guarantees) and every
note, a returning `verify_and_spend` call returns `true` iff the registry
holds a keypair for `note.value`, `note.c` equals `privkey * note.y` for that
keypair, and `note.secret` is not yet in the ledger; it leaves the state
unchanged when it returns `false`, and on success inserts exactly
`note.secret` into the ledger. -/
theorem verify_and_spend_spec (m : Mint) (note : Note) (b : Bool) (m1 : Mint)
    (hwf : ∀ v k, m.keys v = some k → k.value = v)
    (h : m.verify_and_spend note = some (b, m1)) :
    (b = true ↔
      (∃ k, m.keys note.value = some k ∧ note.c = k.privkey * note.y) ∧
        note.secret ∉ m.spent) ∧
      (b = false → m1 = m) ∧
      (b = true → m1.spent = insert note.secret m.spent ∧ m1.keys = m.keys) := by
  obtain ⟨hk, hf, ht⟩ := verify_and_spend_shape h
  refine ⟨⟨?_, ?_⟩, hf, fun hb => ⟨(ht hb).2, hk⟩⟩
  · intro hb
    subst hb
    refine ⟨?_, (ht rfl).1⟩
    unfold Mint.verify_and_spend at h
    cases hkey : m.keys note.value with
    | none =>
      simp only [hkey] at h
      simp at h
    | some key =>
      simp only [hkey] at h
      by_cases hv : key.value ≠ note.value
      · rw [if_pos hv] at h
        simp at h
      · rw [if_neg hv] at h
        by_cases hz : key.privkey * note.y = 0
        · simp only [mul_tweak, if_pos hz] at h
          exact Option.noConfusion h
        · simp only [mul_tweak, if_neg hz] at h
          by_cases hc : note.c ≠ key.privkey * note.y
          · rw [if_pos hc] at h
            simp at h
          · exact ⟨key, rfl, not_not.mp hc⟩
  · rintro ⟨⟨k, hkeq, hcE⟩, hns⟩
    have hv := hwf note.value k hkeq
    by_cases hz : k.privkey * note.y = 0
    · exfalso
      unfold Mint.verify_and_spend at h
      simp only [hkeq] at h
      rw [if_neg (by simp [hv])] at h
      simp only [mul_tweak, if_pos hz] at h
      exact Option.noConfusion h
    · unfold Mint.verify_and_spend at h
      simp only [hkeq] at h
      rw [if_neg (by simp [hv])] at h
      simp only [mul_tweak, if_neg hz] at h
      rw [if_neg (by simp [hcE])] at h
      rw [if_neg hns] at h
      simp only [Option.some_inj, Prod.mk.injEq] at h
      exact h.1.symm

/-- Witness for C3 at a concrete mint and note: the valid note `noteC` is
accepted by `mintC` and its secret inserted. -/
theorem verify_and_spend_spec_witness :
    (true = true ↔
      (∃ k, mintC.keys noteC.value = some k ∧ noteC.c = k.privkey * noteC.y) ∧
        noteC.secret ∉ mintC.spent) ∧
      (true = false → mintC1 = mintC) ∧
      (true = true →
        mintC1.spent = insert noteC.secret mintC.spent ∧ mintC1.keys = mintC.keys) :=
  verify_and_spend_spec mintC noteC true mintC1
    (by
      intro v k hk
      simp only [mintC, mintKeysC] at hk
      split at hk
      · next hv =>
        cases hk
        exact hv.symm
      · exact Option.noConfusion hk)
    (by rfl)

/-- C10: the spent-secret ledger is monotone — any returning sequence of mint
operations (`verify_and_spend` and `swap` calls, in any order and with any
arguments) only ever adds secrets to the ledger, never removing any. -/
theorem spent_monotone (m : Mint) (ops : List MintOp) (m1 : Mint)
    (h : run_ops m ops = some m1) : m.spent ⊆ m1.spent :=
  (run_ops_mono ops m m1 h).2

/-- Witness for C10: one concrete `verify_and_spend` operation grows the
ledger of `mintC` into that of `mintC1`. -/
theorem spent_monotone_witness :
    run_ops mintC [MintOp.verify noteC] = some mintC1 ∧ mintC.spent ⊆ mintC1.spent :=
  ⟨rfl, spent_monotone mintC [MintOp.verify noteC] mintC1 rfl⟩

/-- C4: given a valid note (registered denomination, matching signature point,
unspent secret; `hnz` records that the recomputed signature point is a genuine
curve point, which the prime group order guarantees on real inputs), the first
`verify_and_spend` call succeeds, and after any subsequent returning sequence
of mint operations, any returning `verify_and_spend` call on any note carrying
the same secret returns `false`. -/
theorem spend_at_most_once (m0 : Mint) (n : Note) (k : MintKey)
    (hk : m0.keys n.value = some k) (hkv : k.value = n.value)
    (hc : n.c = k.privkey * n.y) (hnz : k.privkey * n.y ≠ 0)
    (hns : n.secret ∉ m0.spent) :
    m0.verify_and_spend n = some (true, ⟨m0.keys, insert n.secret m0.spent⟩) ∧
      ∀ (ops : List MintOp) (m2 : Mint) (n2 : Note) (b : Bool) (m3 : Mint),
        run_ops ⟨m0.keys, insert n.secret m0.spent⟩ ops = some m2 →
        n2.secret = n.secret →
        m2.verify_and_spend n2 = some (b, m3) → b = false := by
  constructor
  · unfold Mint.verify_and_spend
    simp only [hk]
    rw [if_neg (by simp [hkv])]
    simp only [mul_tweak, if_neg hnz]
    rw [if_neg (by simp [hc])]
    rw [if_neg hns]
  · intro ops m2 n2 b m3 hops hsec hv
    have hmem : n.secret ∈ m2.spent :=
      (run_ops_mono ops _ m2 hops).2 (Finset.mem_insert_self _ _)
    rw [← hsec] at hmem
    exact (verify_and_spend_of_spent hmem hv).1

/-- Witness for C4: `noteC` is accepted by `mintC` once; verifying it again
after the first success (the operation sequence `[verify noteC]`) yields
`false`. -/
theorem spend_at_most_once_witness :
    mintC.verify_and_spend noteC
        = some (true, ⟨mintC.keys, insert noteC.secret mintC.spent⟩) ∧
      false = false := by
  have h := spend_at_most_once mintC noteC ⟨1, 1, 1⟩ rfl rfl (by decide) (by decide)
    (by decide)
  exact ⟨h.1, h.2 [MintOp.verify noteC] mintC1 noteC false mintC1 rfl rfl (by rfl)⟩

/-- C1: blind-signature round trip.  For any secret whose hash-to-curve point
is `y` (any valid, i.e. non-infinity, curve point) and any denomination
keypair `(sk, pk = sk * G)` (in discrete-log representation the public point
is the scalar `sk` itself): if `blind_message` returns `(B', r)` and
`blind_sign` returns the signature point `C'` on `B'`, then
`unblind_signature C' r pk` returns `sk * y`, the issuer's signature on the
original unblinded point.  The side conditions `hrs` and `hsy` record that
`r * pk` and `sk * y` are genuine curve points, which the prime group order
guarantees for nonzero `r`, `sk` and non-infinity `y`. -/
theorem unblind_round_trip (H : ChallengeHash) (y : Point) (sk r rn : Scalar)
    (bm : BlindedMessage) (cp : Point) (pf : DLEQ)
    (_hy : y ≠ 0) (_hsk : sk ≠ 0)
    (hbm : blind_message y r = some bm)
    (hbs : blind_sign H sk bm.blinded_point rn = some (cp, pf))
    (hrs : r * sk ≠ 0) (hsy : sk * y ≠ 0) :
    unblind_signature cp bm.blind_factor sk = some (sk * y) := by
  unfold blind_message at hbm
  by_cases hr : r = 0
  · rw [if_pos hr] at hbm
    exact Option.noConfusion hbm
  · rw [if_neg hr] at hbm
    by_cases hyr : y + r = 0
    · simp only [combine, if_pos hyr] at hbm
      exact Option.noConfusion hbm
    · simp only [combine, if_neg hyr, Option.some_inj] at hbm
      subst hbm
      obtain ⟨-, -, -, -, -, -, -, -, hcp, -⟩ := blind_sign_eq hbs
      unfold unblind_signature
      simp only [mul_tweak, if_neg hrs]
      rw [hcp]
      show combine (sk * (y + r)) (-(r * sk)) = some (sk * y)
      unfold combine
      have harith : sk * (y + r) + -(r * sk) = sk * y := by ring
      rw [harith, if_neg hsy]

/-- Witness for C1 at concrete inputs (`y = G`, `sk = r = rn = 1`, constant
hasher): the hypotheses hold and unblinding recovers `sk * y`. -/
theorem unblind_round_trip_witness :
    blind_message 1 1 = some ⟨2, 1⟩ ∧
      blind_sign Hone 1 (2 : Point) 1 = some (2, ⟨1, 2⟩) ∧
      unblind_signature 2 1 1 = some (1 * 1) :=
  ⟨by decide, by decide,
    unblind_round_trip Hone 1 1 1 1 ⟨2, 1⟩ 2 ⟨1, 2⟩ (by decide) (by decide)
      (by decide) (by decide) (by decide) (by decide)⟩

/-- C2: DLEQ completeness.  If `blind_sign` with private scalar `a` (public
point `A = a * G`, in discrete-log representation the scalar `a`) on blinded
point `B'` returns `(C', proof)`, then `verify_dleq B' C' A proof` returns
`true`.  The side conditions `hec` and `hsb` record that `e * C'` and
`s * B'` are genuine curve points, which the prime group order guarantees
since `e`, `s`, `C'`, `B'` are all nonzero here. -/
theorem verify_dleq_complete (H : ChallengeHash) (a b r : Scalar) (cp : Point)
    (pf : DLEQ)
    (h : blind_sign H a b r = some (cp, pf))
    (hec : pf.e * cp ≠ 0) (hsb : pf.s * b ≠ 0) :
    verify_dleq H b cp a pf = some true := by
  obtain ⟨hab, hr, hrb, hH, he_eq, he, hea, hs, hcp, hs_eq⟩ := blind_sign_eq h
  unfold verify_dleq
  have hs0 : pf.s ≠ 0 := hs_eq ▸ hs
  have hr1 : pf.s + -(pf.e * a) = r := by
    rw [hs_eq]
    ring
  have hr2 : pf.s * b + -(pf.e * cp) = r * b := by
    rw [hs_eq, hcp]
    ring
  simp only [mul_tweak, combine, if_neg hea, if_neg hs0, hr1, if_neg hr,
    if_neg hec, if_neg hsb, hr2, if_neg hrb]
  rw [hcp]
  simp only [scalar_from_be_bytes, if_pos hH]
  rw [← he_eq]
  simp

/-- Witness for C2 at concrete inputs (`a = b = r = 1`, constant hasher): the
honestly generated proof verifies. -/
theorem verify_dleq_complete_witness :
    blind_sign Hone 1 (1 : Point) 1 = some (1, ⟨1, 2⟩) ∧
      verify_dleq Hone 1 1 1 ⟨1, 2⟩ = some true :=
  ⟨by decide,
    verify_dleq_complete Hone 1 1 1 1 ⟨1, 2⟩ (by decide) (by decide) (by decide)⟩

/-- Counterexample to C5 as stated: with `mintC` (denomination 1 configured),
a swap whose first input `noteC` is valid and whose second input `badNoteC`
has a forged signature fails (returns `None`), yet `noteC.secret` — which was
not in the ledger before — has been inserted: a failing swap does leave an
input secret newly inserted. -/
theorem swap_burned_inputs_cex :
    mintC.swap Hone nonce1 [noteC, badNoteC] [(2, 1)] = some (none, mintC1) ∧
      noteC.secret ∈ mintC1.spent ∧ noteC.secret ∉ mintC.spent :=
  ⟨rfl, by decide, by decide⟩

/-- C5 (amended): a failing swap (`None` result) signs no outputs and touches
the ledger only by inserting secrets of the presented input notes — the inputs
verified before the failure stay spent; a swap failing the value-conservation
check leaves the state entirely unchanged. -/
theorem swap_failure_spec (H : ChallengeHash) (nonces : ℕ → Scalar) (m : Mint)
    (inputs : List Note) (outputs : List (ℕ × Point)) (m1 : Mint)
    (h : m.swap H nonces inputs outputs = some (none, m1)) :
    m1.keys = m.keys ∧ m.spent ⊆ m1.spent ∧
      m1.spent ⊆ m.spent ∪ (inputs.map Note.secret).toFinset ∧
      (wrap_sum (inputs.map Note.value) ≠ wrap_sum (outputs.map Prod.fst) →
        m1 = m) := by
  obtain ⟨hk, hs, hnew⟩ := swap_shape h
  refine ⟨hk, hs, hnew, ?_⟩
  intro hsum
  unfold Mint.swap at h
  rw [if_pos hsum] at h
  simp only [Option.some_inj, Prod.mk.injEq] at h
  exact h.2.symm

/-- Witness for the amended C5 at the concrete failing swap: the ledger of the
post-state extends that of the pre-state by input secrets only. -/
theorem swap_failure_spec_witness :
    mintC.swap Hone nonce1 [noteC, badNoteC] [(2, 1)] = some (none, mintC1) ∧
      (mintC1.keys = mintC.keys ∧ mintC.spent ⊆ mintC1.spent ∧
        mintC1.spent ⊆ mintC.spent ∪ ([noteC, badNoteC].map Note.secret).toFinset ∧
        (wrap_sum ([noteC, badNoteC].map Note.value)
            ≠ wrap_sum ([((2 : ℕ), (1 : Point))].map Prod.fst) →
          mintC1 = mintC)) :=
  ⟨rfl, swap_failure_spec Hone nonce1 mintC [noteC, badNoteC] [(2, 1)] mintC1 rfl⟩

/-- Counterexample to C6 as stated: under the `u64` wrapping sum of the
source, two valid notes of denomination `2 ^ 63` against an empty output list
have unequal integer value sums (`2 ^ 64 ≠ 0`), yet the wrapped sums agree, so
the swap succeeds (returns `Some []`) and consumes both inputs — it neither
returns none nor leaves the state unchanged. -/
theorem swap_value_cex :
    ([noteW1, noteW2].map Note.value).sum ≠ (([] : List (ℕ × Point)).map Prod.fst).sum ∧
      mintW.swap Hone nonce1 [noteW1, noteW2] [] = some (some [], mintWab) :=
  ⟨by decide, rfl⟩

/-- C6 (amended): whenever the input and output value sums differ modulo
`2 ^ 64` (the comparison the `u64` code actually performs; for sums below
`2 ^ 64` this is exactly integer equality), `swap` returns `None` with the
mint state entirely unchanged. -/
theorem swap_value_conservation (H : ChallengeHash) (nonces : ℕ → Scalar)
    (m : Mint) (inputs : List Note) (outputs : List (ℕ × Point))
    (h : wrap_sum (inputs.map Note.value) ≠ wrap_sum (outputs.map Prod.fst)) :
    m.swap H nonces inputs outputs = some (none, m) := by
  unfold Mint.swap
  rw [if_pos h]

/-- Witness for the amended C6: a one-input, zero-output swap fails with no
state change. -/
theorem swap_value_conservation_witness :
    wrap_sum ([noteC].map Note.value) ≠ wrap_sum (([] : List (ℕ × Point)).map Prod.fst) ∧
      mintC.swap Hone nonce1 [noteC] [] = some (none, mintC) :=
  ⟨by decide, swap_value_conservation Hone nonce1 mintC [noteC] [] (by decide)⟩

/-- Counterexample to C7 as stated: with the wallet `walletW` holding valid
notes of values `[2^63, 2^63, 2^63 + 5]` and `amount = 2^63 + 5`, no prefix
sum (as unbounded integers, in stored order) equals the amount, yet the
wrapping `u64` accumulator of the source reaches exactly `amount`
(`2^63 + 2^63` wraps to `0`), so `spend` succeeds, removes all three notes
from the wallet and inserts their secrets into the ledger — instead of
failing and consuming nothing. -/
theorem wallet_spend_cex :
    (2 ^ 63 + 5) ∉ cumulativeSums 0 (walletW.notes.map Note.value) ∧
      walletW.spend mintW (2 ^ 63 + 5) = some (true, ⟨[]⟩, mintWafter) :=
  ⟨by decide, rfl⟩

/-- C7 (amended): whenever the greedy selection loop (stored order, wrapping
`u64` accumulation, stopping before the first note at which the running sum
already reaches `amount`) ends with an accumulated sum different from
`amount`, `spend` fails and consumes nothing: the wallet's note collection and
the mint's ledger are both returned unchanged. -/
theorem wallet_spend_exactness (w : Wallet) (m : Mint) (amount : ℕ)
    (h : (select_notes w.notes amount 0).2 ≠ amount) :
    w.spend m amount = some (false, w, m) := by
  unfold Wallet.spend
  rcases hsel : select_notes w.notes amount 0 with ⟨selected, sum⟩
  rw [hsel] at h
  simp only [hsel]
  rw [if_pos h]

/-- Witness for the amended C7: a wallet holding one value-1 note cannot pay
amount 2; nothing changes. -/
theorem wallet_spend_exactness_witness :
    (select_notes (⟨[noteC]⟩ : Wallet).notes 2 0).2 ≠ 2 ∧
      Wallet.spend ⟨[noteC]⟩ mintC 2 = some (false, ⟨[noteC]⟩, mintC) :=
  ⟨by decide, wallet_spend_exactness ⟨[noteC]⟩ mintC 2 (by decide)⟩

/-- C8: the ledger gate of `verify_and_spend` is a separate `contains` call
followed by a separate `insert` call (mint.rs lines 69–73), not an atomic
check-then-insert.  Under the interleaving T1-contains, T2-contains,
T1-insert, T2-insert on the same fresh secret `[0]`, both threads observe the
secret absent and both finish with result `true` — two concurrent spends of
the same secret both succeed, contradicting the claim.  (The atomic
`insert`-if-absent primitive the spec demands is available: `DashSet::insert`
returns whether the value was newly inserted, but the code ignores that
return value.) -/
theorem double_spend_race :
    race_run [0] ⟨∅, .start, .start⟩ [false, true, false, true]
      = ⟨insert [0] ∅, .finished true, .finished true⟩ :=
  rfl

/-- A stream with no valid candidate keeps the `random_scalar` loop running
forever: its finite unfolding returns nothing at every fuel. -/
lemma random_scalar_stuck (bytes : ℕ → ℕ)
    (hb : ∀ j, ¬(bytes j < GroupOrder ∧ bytes j ≠ 0)) :
    ∀ fuel i, random_scalar bytes fuel i = none := by
  intro fuel
  induction fuel with
  | zero => intro i; rfl
  | succ n ih =>
    intro i
    simp only [random_scalar]
    rw [if_neg (hb i)]
    exact ih (i + 1)

/-- A stream with no valid candidate keeps the `hash_to_curve` loop running
forever. -/
lemma hash_to_curve_stuck (digest : ℕ → ℕ)
    (hd : ∀ j, ¬(0 < digest j ∧ digest j < GroupOrder)) :
    ∀ fuel i, hash_to_curve digest fuel i = none := by
  intro fuel
  induction fuel with
  | zero => intro i; rfl
  | succ n ih =>
    intro i
    simp only [hash_to_curve]
    rw [if_neg (hd i)]
    exact ih (i + 1)

/-- Counterexample to C9 as stated: no iteration cap exists for either retry
loop.  Whatever bound one proposes, the all-zero candidate stream (a broken
entropy source returning zero bytes, or, for `hash_to_curve`, a digest stream
with no valid scalar) keeps the loop iterating past it, and the code has no
fatal exit: it simply loops. -/
theorem retry_loops_cap_cex : ¬ retry_loops_capped := by
  rintro ⟨⟨cap, hall⟩, -⟩
  have h0 := hall fun _ => 0
  rw [random_scalar_stuck (fun _ => 0) (fun j => by simp) cap 0] at h0
  exact Bool.noConfusion h0

/-- C9 (amended): the two retry loops have no iteration cap and no fatal
exit; each simply iterates until its candidate stream yields a valid value,
running unboundedly (for any amount of fuel) on a stream that never does. -/
theorem retry_loops_unbounded (bytes digest : ℕ → ℕ)
    (hb : ∀ j, ¬(bytes j < GroupOrder ∧ bytes j ≠ 0))
    (hd : ∀ j, ¬(0 < digest j ∧ digest j < GroupOrder)) (fuel i : ℕ) :
    random_scalar bytes fuel i = none ∧ hash_to_curve digest fuel i = none :=
  ⟨random_scalar_stuck bytes hb fuel i, hash_to_curve_stuck digest hd fuel i⟩

/-- Witness for the amended C9 on the all-zero streams at fuel 3. -/
theorem retry_loops_unbounded_witness :
    random_scalar (fun _ => 0) 3 0 = none ∧ hash_to_curve (fun _ => 0) 3 0 = none :=
  retry_loops_unbounded (fun _ => 0) (fun _ => 0) (fun j => by simp)
    (fun j => by simp) 3 0

end DmtoEcash
